import Mathlib

/-
Verification development for the make-lite build tool.

The definitions below are a shallow embedding of the Go sources:
  - cmd/make-lite/variables.go  (variable store, macro expander, sub-shell runner)
  - cmd/make-lite/utils.go      (trimQuotes, cleanEnvLine)
  - cmd/make-lite/parser.go     (pass-1 line classification, recipe collection, load_env)
  - cmd/make-lite/engine.go     (freshness check, recipe execution step)
  - cmd/make-lite/main.go       (exit-code behaviour)

Modelling conventions:
  - Go strings are modelled as `List Char` (the sources only manipulate ASCII
    bytes in the scanned positions).
  - `os.Stat` results are modelled by `FsEntry` (missing / directory / regular
    file with an mtime as a natural number).  Go's zero `time.Time` is modelled
    as `Option.none` in the accumulator of the target scan; a stat of an
    existing path never yields the zero time.
  - Sub-shell execution (`runShellCmd`) is modelled by an oracle
    `Sh := List Char → Option (List Char)`; `none` models a non-zero exit of
    the sub-shell, `some out` models success with captured (already trimmed)
    standard output.  The `isExpandingForEnv` re-entrance guard and the debug
    output are not observable in the claims and are not modelled.
  - Error values are an inductive `MlError` whose constructors carry the same
    information as the Go error strings.
  - Diagnostic-only fields (origin file and line of a variable or rule) are
    omitted: in the Go code they are only interpolated into messages.
-/

namespace MLite

/-- Convert a string literal to the `List Char` representation used throughout. -/
def s2l (s : String) : List Char := s.data

/-- Whitespace test used by `strings.TrimSpace` / `strings.Fields` (ASCII part). -/
def isSpaceChar (c : Char) : Bool :=
  c = ' ' || c = '\t' || c = '\n' || c = '\r'

/-- `strings.TrimSpace`: drop leading and trailing whitespace. -/
def trimSpace (l : List Char) : List Char :=
  ((l.dropWhile isSpaceChar).reverse.dropWhile isSpaceChar).reverse

/-- Word characters of the Go regexp `[a-zA-Z0-9_]` (variables.go line 180). -/
def isWordChar (c : Char) : Bool :=
  ('a' ≤ c && c ≤ 'z') || ('A' ≤ c && c ≤ 'Z') || ('0' ≤ c && c ≤ '9') || c = '_'

/-- `listPrefix p l` is `strings.HasPrefix (String.mk l) (String.mk p)`. -/
def listPrefix : List Char → List Char → Bool
  | [], _ => true
  | _ :: _, [] => false
  | p :: ps, c :: cs => p = c && listPrefix ps cs

/-- Helper for `fields`: accumulate the current word (reversed). -/
def fieldsAux : List Char → List Char → List (List Char)
  | [], acc => if acc = [] then [] else [acc.reverse]
  | c :: cs, acc =>
    if isSpaceChar c then
      if acc = [] then fieldsAux cs [] else acc.reverse :: fieldsAux cs []
    else fieldsAux cs (c :: acc)

/-- `strings.Fields`: split around runs of whitespace. -/
def fields (l : List Char) : List (List Char) := fieldsAux l []

/-- `strings.SplitN(s, "=", 2)` restricted to the found/not-found distinction:
returns the parts before and after the first `=`, if any. -/
def splitFirstEq : List Char → Option (List Char × List Char)
  | [] => none
  | c :: cs =>
    if c = '=' then some ([], cs)
    else match splitFirstEq cs with
      | none => none
      | some (a, b) => some (c :: a, b)

/-- utils.go `trimQuotes`: strip one matching pair of surrounding quotes. -/
def trimQuotes (s : List Char) : List Char :=
  if s.length ≥ 2 then
    match s with
    | c :: cs =>
      if c = '"' && cs.getLast? = some '"' then cs.dropLast
      else if c = '\'' && cs.getLast? = some '\'' then cs.dropLast
      else s
    | [] => s
  else s

/-- utils.go `cleanEnvLine`: trim, skip blanks and `#` comments, split on the
first `=`, take the last whitespace token of the left side as the key, trim and
unquote the value.  `none` models the `ok = false` return. -/
def cleanEnvLine (line : List Char) : Option (List Char × List Char) :=
  let t := trimSpace line
  if t = [] then none
  else if listPrefix (s2l "#") t then none
  else match splitFirstEq t with
    | none => none
    | some (lhs, rhs) =>
      match (fields (trimSpace lhs)).getLast? with
      | none => none
      | some key => some (key, trimQuotes (trimSpace rhs))

/-- Origin tiers of variables.go (`varSource`); the `iota` order gives the rank. -/
inductive VarSource where
  | makefileConditional
  | envFile
  | shellEnv
  | makefileUnconditional
deriving DecidableEq, Repr

/-- Numeric rank of a tier, as the Go `iota` constants compare. -/
def VarSource.rank : VarSource → Nat
  | .makefileConditional => 0
  | .envFile => 1
  | .shellEnv => 2
  | .makefileUnconditional => 3

/-- variables.go `varEntry` (origin file/line omitted: diagnostics only). -/
structure VarEntry where
  value : List Char
  source : VarSource
deriving DecidableEq, Repr

/-- The variable store's map `vars` (variables.go `VariableStore.vars`). -/
def Store := List Char → Option VarEntry

/-- Point update of a store. -/
def stInsert (st : Store) (k : List Char) (e : VarEntry) : Store :=
  fun k2 => if k2 = k then some e else st k2

/-- variables.go `Set`: a conditional write stores only when the key is absent;
any other write stores when the key is absent or the incoming tier is `≥` the
stored tier.  (The redefinition warning only prints; the env-cache invalidation
has no observable effect here.) -/
def setVar (st : Store) (key value : List Char) (src : VarSource) : Store :=
  if src = .makefileConditional then
    match st key with
    | none => stInsert st key ⟨value, src⟩
    | some _ => st
  else
    match st key with
    | none => stInsert st key ⟨value, src⟩
    | some e => if e.source.rank ≤ src.rank then stInsert st key ⟨value, src⟩ else st

/-- One recorded `Set` call of a run. -/
structure SetOp where
  key : List Char
  value : List Char
  src : VarSource

/-- Replay a sequence of `Set` calls. -/
def applySets (st : Store) (ops : List SetOp) : Store :=
  ops.foldl (fun s o => setVar s o.key o.value o.src) st

/-- parser.go `loadEnvFile`, after the file has been read into lines: every
line accepted by `cleanEnvLine` is written at tier `envFile`; others are
skipped. -/
def loadEnvFile (st : Store) (lines : List (List Char)) : Store :=
  lines.foldl
    (fun s l => match cleanEnvLine l with
      | some (k, v) => setVar s k v .envFile
      | none => s) st

/-- Error values of the modelled code; each constructor corresponds to one
`fmt.Errorf` site (the carried data is what the format string interpolates).
`outOfFuel` is an artifact of the fuelled recursion and is unreachable when the
fuel exceeds the input length (`expand_fuel_congr`). -/
inductive MlError where
  | outOfFuel
  | unmatchedParen (rest : List Char)
  | unsupportedFunction (name : List Char)
  | circularVar (name : List Char)
  | shellFailed (cmd : List Char)
  | missingDependency (src tgt : List Char)
  | multipleColons (line : List Char)
  | noVarName (line : List Char)
  | indentedLine (line : List Char)
  | notARule (line : List Char)
  | cmdExpand (cmd : List Char) (inner : MlError)
  | recipeCmdFailed (cmd : List Char)
deriving DecidableEq, Repr

/-- Sub-shell oracle: `none` is a non-zero exit, `some out` is the captured
standard output (already right-trimmed of newlines, as `runShellCmd` returns). -/
def Sh := List Char → Option (List Char)

/-- variables.go `runShellCmd` through the oracle. -/
def runShellCmd (sh : Sh) (cmd : List Char) : Except MlError (List Char) :=
  match sh cmd with
  | some out => .ok out
  | none => .error (.shellFailed cmd)

/-- strings.go `unsupportedMakeFunctions` (the key set). -/
def unsupportedMakeFunctions : List (List Char) :=
  [s2l "subst", s2l "patsubst", s2l "strip", s2l "findstring", s2l "filter",
   s2l "filter-out", s2l "sort", s2l "word", s2l "words", s2l "wordlist",
   s2l "firstword", s2l "lastword", s2l "dir", s2l "notdir", s2l "suffix",
   s2l "basename", s2l "addsuffix", s2l "addprefix", s2l "join", s2l "foreach",
   s2l "if", s2l "or", s2l "and", s2l "call", s2l "origin", s2l "value",
   s2l "info", s2l "warning", s2l "error"]

/-- `strings.SplitN(ec, " ", 2)[0]`: the prefix of `ec` before the first space
character (the whole of `ec` when it has no space). -/
def spaceToken (ec : List Char) : List Char := ec.takeWhile (fun c => !(c = ' '))

/-- The balance scan of variables.go lines 136-148: starting after `$(` with
`balance` open parentheses, find the position where the balance reaches zero.
Every `(` and `)` is counted — the scan does not look at backslashes.  Returns
the content before the closing `)` and the remainder after it. -/
def findClose : List Char → Nat → Option (List Char × List Char)
  | [], _ => none
  | c :: cs, bal =>
    if c = '(' then
      match findClose cs (bal + 1) with
      | none => none
      | some (b, r) => some (c :: b, r)
    else if c = ')' then
      if bal = 1 then some ([], cs)
      else match findClose cs (bal - 1) with
        | none => none
        | some (b, r) => some (c :: b, r)
    else match findClose cs bal with
      | none => none
      | some (b, r) => some (c :: b, r)

/-- variables.go `expand(input, unescape, visiting)`, with structural fuel (the
Go loop/recursion terminates because every recursive call is on a strictly
shorter string; `expand_fuel_congr` shows the fuel does not matter once it
exceeds the input length).  Walks the input; `\X` emits `X` when unescaping;
`$$` emits `$`; `$(BODY)` recursively expands BODY (always unescaping) and then
dispatches: unsupported-function check on the first space token, `shell `
prefix, defined variable, implicit shell command; `$NAME` substitutes the
stored value (empty when undefined) after the dead `visiting` check. -/
def expand (st : Store) (sh : Sh) : Nat → Bool → List (List Char) → List Char →
    Except MlError (List Char)
  | 0, _, _, _ => .error .outOfFuel
  | _ + 1, _, _, [] => .ok []
  | fuel + 1, u, vis, ch :: rest =>
    if u && ch = '\\' then
      match rest with
      | [] => .ok ['\\']
      | c :: rest2 => (expand st sh fuel u vis rest2).map (fun t => c :: t)
    else if ch = '$' then
      match rest with
      | [] => .ok ['$']
      | c2 :: r =>
        if c2 = '$' then (expand st sh fuel u vis r).map (fun t => '$' :: t)
        else if c2 = '(' then
          match findClose r 1 with
          | none => .error (.unmatchedParen (ch :: rest))
          | some (content, after) =>
            match expand st sh fuel true vis content with
            | .error e => .error e
            | .ok ec =>
              if unsupportedMakeFunctions.contains (spaceToken ec) then
                .error (.unsupportedFunction (spaceToken ec))
              else
                match
                  (if listPrefix (s2l "shell ") ec then
                    runShellCmd sh (trimSpace (ec.drop 5))
                  else match st ec with
                    | some en => .ok en.value
                    | none => runShellCmd sh ec) with
                | .error e => .error e
                | .ok v => (expand st sh fuel u vis after).map (fun t => v ++ t)
        else
          let name := rest.takeWhile isWordChar
          if name = [] then (expand st sh fuel u vis rest).map (fun t => '$' :: t)
          else if vis.contains name then .error (.circularVar name)
          else
            let v := match st name with | some en => en.value | none => []
            (expand st sh fuel u vis (rest.drop name.length)).map (fun t => v ++ t)
    else (expand st sh fuel u vis rest).map (fun t => ch :: t)

/-- variables.go `Expand(input, unescape)`: top-level expansion with an empty
visiting set (and adequate fuel). -/
def Expand (st : Store) (sh : Sh) (u : Bool) (cs : List Char) :
    Except MlError (List Char) :=
  expand st sh (cs.length + 1) u [] cs

/-- parser.go `splitOnUnescaped`: split at the first occurrence of `sep` that
is not protected by a backslash (each backslash protects the next character).
`none` models the `found = false` return. -/
def splitOnUnescaped : List Char → Char → Option (List Char × List Char)
  | [], _ => none
  | c :: cs, sep =>
    if c = '\\' then
      match cs with
      | [] => none
      | c2 :: cs2 =>
        match splitOnUnescaped cs2 sep with
        | none => none
        | some (a, b) => some (c :: c2 :: a, b)
    else if c = sep then some ([], cs)
    else match splitOnUnescaped cs sep with
      | none => none
      | some (a, b) => some (c :: a, b)

/-- `len(line) > 0 && (line[0] == ' ' || line[0] == '\t')` of parser.go. -/
def isIndented : List Char → Bool
  | [] => false
  | c :: _ => c = ' ' || c = '\t'

/-- The recipe-collection loop of parser.go lines 262-273: starting after a
rule header, a blank line is appended to the recipe and collection continues; a
non-blank, non-indented line stops collection; an indented line is appended.
Returns the collected recipe and the remaining lines. -/
def takeRecipe : List (List Char) → List (List Char) × List (List Char)
  | [] => ([], [])
  | l :: ls =>
    if trimSpace l = [] then
      let (r, rest) := takeRecipe ls
      (l :: r, rest)
    else if isIndented l then
      let (r, rest) := takeRecipe ls
      (l :: r, rest)
    else ([], l :: ls)

/-- parser.go `rawRule` (origin file/line omitted: diagnostics only). -/
structure RawRule where
  definitionLine : List Char
  recipeLines : List (List Char)
deriving DecidableEq, Repr

/-- The non-rule half of the pass-1 classification (parser.go lines 276-308):
variable assignment (with `?` suffix detection), `load_env`, or the two error
cases.  `envFs` maps an env-file path to its lines (`none`: file missing, which
`loadEnvFile` silently ignores; other open errors are not modelled).  Returns
the updated store. -/
def classifyNonRule (sh : Sh) (envFs : List Char → Option (List (List Char)))
    (st : Store) (line trimmed : List Char) : Except MlError Store :=
  match splitOnUnescaped trimmed '=' with
  | some (left0, right) =>
    let isCond := (trimSpace left0).getLast? = some '?'
    let left := if isCond then trimSpace left0.dropLast else left0
    match (fields (trimSpace left)).getLast? with
    | none => .error (.noVarName trimmed)
    | some varName =>
      match Expand st sh true (trimSpace right) with
      | .error e => .error e
      | .ok value =>
        .ok (setVar st varName value
          (if isCond then .makefileConditional else .makefileUnconditional))
  | none =>
    if listPrefix (s2l "load_env ") trimmed then
      let envPath := trimQuotes (trimSpace (trimmed.drop 8))
      match envFs envPath with
      | none => .ok st
      | some lns => .ok (loadEnvFile st lns)
    else if isIndented line then .error (.indentedLine trimmed)
    else .error (.notARule trimmed)

/-- parser.go `collectVarsAndRawRules` (pass 1), with structural fuel (each
step consumes at least one line, so `length + 1` fuel always suffices —
`collect_fuel_congr`).  A line whose first unescaped `:` has no `=` anywhere to
its left is a rule header (multiple unescaped colons are an error) and absorbs
the following recipe block; anything else goes through `classifyNonRule`. -/
def collectVarsAndRawRulesF (sh : Sh) (envFs : List Char → Option (List (List Char))) :
    Nat → Store → List (List Char) → Except MlError (List RawRule × Store)
  | 0, _, _ => .error .outOfFuel
  | _ + 1, st, [] => .ok ([], st)
  | fuel + 1, st, line :: ls =>
    let trimmed := trimSpace line
    if trimmed = [] then collectVarsAndRawRulesF sh envFs fuel st ls
    else
      match splitOnUnescaped trimmed ':' with
      | some (left, right) =>
        if left.contains '=' then
          match classifyNonRule sh envFs st line trimmed with
          | .error e => .error e
          | .ok st2 => collectVarsAndRawRulesF sh envFs fuel st2 ls
        else if (splitOnUnescaped right ':').isSome then
          .error (.multipleColons trimmed)
        else
          let (recipe, rest) := takeRecipe ls
          match collectVarsAndRawRulesF sh envFs fuel st rest with
          | .error e => .error e
          | .ok (rules, st2) => .ok (⟨trimmed, recipe⟩ :: rules, st2)
      | none =>
        match classifyNonRule sh envFs st line trimmed with
        | .error e => .error e
        | .ok st2 => collectVarsAndRawRulesF sh envFs fuel st2 ls

/-- Pass 1 with adequate fuel. -/
def collectVarsAndRawRules (sh : Sh) (envFs : List Char → Option (List (List Char)))
    (st : Store) (lines : List (List Char)) : Except MlError (List RawRule × Store) :=
  collectVarsAndRawRulesF sh envFs (lines.length + 1) st lines

/-- The collected raw rules of pass 1 (the store projected away). -/
def collectedRules (sh : Sh) (envFs : List Char → Option (List (List Char)))
    (st : Store) (lines : List (List Char)) : Except MlError (List RawRule) :=
  (collectVarsAndRawRules sh envFs st lines).map Prod.fst

/-- Boolean error test on `Except`. -/
def isErr {ε α : Type} : Except ε α → Bool
  | .error _ => true
  | .ok _ => false

/-- Result of `os.Stat` on a path: absent, a directory, or a regular file,
with the modification time as a natural number. -/
inductive FsEntry where
  | missing
  | dir (mtime : Nat)
  | file (mtime : Nat)
deriving DecidableEq, Repr

/-- types.go `Rule` (Origin omitted: diagnostics only). -/
structure Rule where
  targets : List (List Char)
  sources : List (List Char)
  recipe : List (List Char)
deriving DecidableEq, Repr

/-- Outcome of the target loop of `checkFreshness` (engine.go lines 117-133):
`stale` = some target missing (early `return true`); `phony` = a directory
target was found (`isPhony`, `break`); `done acc` = all scanned targets are
regular files, `acc` their accumulated oldest mtime (Go's zero `time.Time` is
`none`). -/
inductive TargetScan where
  | stale
  | phony (acc : Option Nat)
  | done (acc : Option Nat)
deriving DecidableEq, Repr

/-- `if oldest.IsZero() || mod.Before(oldest) { oldest = mod }`. -/
def updOldest : Option Nat → Nat → Option Nat
  | none, m => some m
  | some o, m => if m < o then some m else some o

/-- The target loop of engine.go `checkFreshness`. -/
def scanTargets (fs : List Char → FsEntry) : List (List Char) → Option Nat → TargetScan
  | [], acc => .done acc
  | t :: ts, acc =>
    match fs t with
    | .missing => .stale
    | .dir _ => .phony acc
    | .file m => scanTargets fs ts (updOldest acc m)

/-- `mod.After(oldest)`: strictly newer (anything is after the zero time). -/
def mtimeAfter : Option Nat → Nat → Bool
  | none, _ => true
  | some o, m => o < m

/-- The source loop of engine.go `checkFreshness` (lines 143-163): a missing
source that is a known rule target is skipped; a missing source that is not is
the fatal missing-dependency error; an existing source (directories included —
the loop never checks `IsDir`) is compared against the oldest target mtime and
an early `return true` fires when it is strictly newer. -/
def scanSources (fs : List Char → FsEntry) (rt : List Char → Bool)
    (oldest : Option Nat) (tgt0 : List Char) : List (List Char) → Except MlError Bool
  | [] => .ok false
  | s :: ss =>
    match fs s with
    | .missing =>
      if rt s then scanSources fs rt oldest tgt0 ss
      else .error (.missingDependency s tgt0)
    | .dir m =>
      if mtimeAfter oldest m then .ok true else scanSources fs rt oldest tgt0 ss
    | .file m =>
      if mtimeAfter oldest m then .ok true else scanSources fs rt oldest tgt0 ss

/-- engine.go `checkFreshness`: `.ok true` = the recipe must run (stale),
`.ok false` = fresh.  `rt` is membership in `makefile.RuleMap`. -/
def checkFreshness (fs : List Char → FsEntry) (rt : List Char → Bool)
    (rule : Rule) : Except MlError Bool :=
  if rule.targets.isEmpty then .ok true
  else
    match scanTargets fs rule.targets none with
    | .stale => .ok true
    | .phony _ => .ok true
    | .done acc =>
      if rule.sources.isEmpty && acc.isNone then .ok true
      else if rule.sources.isEmpty then .ok false
      else scanSources fs rt acc (rule.targets.headD []) rule.sources

/-- `strings.Index(cmd, "@")` removal: drop the first `@` of the line. -/
def removeFirstAt : List Char → List Char
  | [] => []
  | c :: cs => if c = '@' then cs else c :: removeFirstAt cs

/-- engine.go `executeRecipe`, command loop only (the `MkdirAll` calls touch
only the filesystem): skip blank lines, strip a leading `@` (suppressed echo is
not modelled), expand with `unescape = false`, run through the recipe oracle
`ex` (`true` = exit status 0).  Returns the commands actually launched, and the
error that stopped the loop, if any. -/
def executeRecipe (st : Store) (sh : Sh) (ex : List Char → Bool) :
    List (List Char) → List (List Char) × Option MlError
  | [] => ([], none)
  | l :: ls =>
    if trimSpace l = [] then executeRecipe st sh ex ls
    else
      let cmd := if listPrefix (s2l "@") (trimSpace l) then removeFirstAt l else l
      match Expand st sh false cmd with
      | .error e => ([], some (.cmdExpand l e))
      | .ok ec =>
        if ex ec then
          let (cs, r) := executeRecipe st sh ex ls
          (ec :: cs, r)
        else ([ec], some (.recipeCmdFailed ec))

/-- The per-rule step of engine.go `buildRecursive` lines 79-100: freshness
first; a freshness error returns before `executeRecipe` is reached; a stale
rule runs its recipe; a fresh rule runs nothing.  Returns the commands launched
and the error, if any. -/
def runRuleStep (st : Store) (sh : Sh) (ex : List Char → Bool)
    (fs : List Char → FsEntry) (rt : List Char → Bool) (rule : Rule) :
    List (List Char) × Option MlError :=
  match checkFreshness fs rt rule with
  | .error e => ([], some e)
  | .ok true => executeRecipe st sh ex rule.recipe
  | .ok false => ([], none)

/-- Mtime of a regular file, if the entry is one. -/
def fileMtime : FsEntry → Option Nat
  | .file m => some m
  | _ => none

/-- Mtime of an existing entry (`os.Stat` succeeds on directories too). -/
def entryMtime : FsEntry → Option Nat
  | .missing => none
  | .dir m => some m
  | .file m => some m

def isMissingB : FsEntry → Bool
  | .missing => true
  | _ => false

def isDirB : FsEntry → Bool
  | .dir _ => true
  | _ => false

/-- Minimum of a list of mtimes. -/
def minMtimes : List Nat → Option Nat
  | [] => none
  | a :: as => some (as.foldl Nat.min a)

/-- Formalization of the claimed freshness policy, in the words of the claim
(spec §4.6 steps 2-6): stale when a target is missing; stale when a target is a
directory; fresh when there are no sources and all targets are regular files;
otherwise stale exactly when some source's mtime is strictly newer than the
minimum mtime over all targets. -/
def specStale (fs : List Char → FsEntry) (rule : Rule) : Bool :=
  if rule.targets.any (fun t => isMissingB (fs t)) then true
  else if rule.targets.any (fun t => isDirB (fs t)) then true
  else if rule.sources.isEmpty then false
  else
    match minMtimes (rule.targets.filterMap (fun t => fileMtime (fs t))) with
    | none => false
    | some o =>
      rule.sources.any (fun s =>
        match entryMtime (fs s) with
        | some m => o < m
        | none => false)

/-- The exit-code behaviour of main.go (lines 20-56): makefile not found → 1;
parse error → 1; no CLI target and no rules → 1; `sh` not found in PATH → 1;
build error → 1; otherwise normal termination (0).  Help/version return 0
before any of this and are not modelled. -/
def mainExitCode (makefileFound : Bool) (parse : Except MlError (List Rule))
    (cliTarget : List Char) (shellFound : Bool) (build : Except MlError Unit) : Nat :=
  if !makefileFound then 1
  else
    match parse with
    | .error _ => 1
    | .ok rules =>
      if cliTarget = [] && rules.isEmpty then 1
      else if !shellFound then 1
      else
        match build with
        | .error _ => 1
        | .ok _ => 0

/-- Empty store (no process environment), for concrete runs. -/
def store0 : Store := fun _ => none

/-- Concrete sub-shell oracle for concrete runs: every command succeeds and
echoes itself behind `R:`. -/
def shOracle0 : Sh := fun c => some ('R' :: ':' :: c)

/-- Concrete env-file oracle: no env file exists. -/
def envFs0 : List Char → Option (List (List Char)) := fun _ => none

/-- Concrete recipe oracle: every command exits 0. -/
def exAll : List Char → Bool := fun _ => true

/-- Concrete filesystem: target `t` is an old file, source `s1` a newer file,
everything else (in particular source `s2`) missing. -/
def fsA : List Char → FsEntry :=
  fun k => if k = s2l "t" then .file 0 else if k = s2l "s1" then .file 5 else .missing

/-- Concrete rule map: nothing is a rule target. -/
def rtNone : List Char → Bool := fun _ => false

/-- Concrete rule whose second source is missing and not a rule target. -/
def ruleA : Rule := ⟨[s2l "t"], [s2l "s1", s2l "s2"], [s2l "touch t"]⟩

/-- Condition under which the source scan passes over a source without
stopping: a missing source that is a known rule target, or an existing source
(file or directory) not strictly newer than the oldest target mtime. -/
def srcPasses (fs : List Char → FsEntry) (rt : List Char → Bool)
    (o : Option Nat) (p : List Char) : Bool :=
  match fs p with
  | .missing => rt p
  | .dir m => !mtimeAfter o m
  | .file m => !mtimeAfter o m


lemma stInsert_self (st : Store) (k : List Char) (e : VarEntry) :
    stInsert st k e k = some e := by
  simp [stInsert]

lemma stInsert_other (st : Store) (k k2 : List Char) (e : VarEntry) (h : k2 ≠ k) :
    stInsert st k e k2 = st k2 := by
  simp [stInsert, h]

lemma setVar_preserves (st : Store) (k v : List Char) (src : VarSource)
    (k2 : List Char) (e : VarEntry) (h : st k2 = some e) :
    ∃ e2, setVar st k v src k2 = some e2 ∧ e.source.rank ≤ e2.source.rank := by
  unfold setVar
  by_cases hk2 : k2 = k
  · subst hk2
    rw [h]
    by_cases hsrc : src = VarSource.makefileConditional
    · simp [hsrc, h]
    · simp only [hsrc, if_false]
      by_cases hr : e.source.rank ≤ src.rank
      · exact ⟨⟨v, src⟩, by simp [hr, stInsert_self], hr⟩
      · exact ⟨e, by simp [hr, h], le_refl _⟩
  · by_cases hsrc : src = VarSource.makefileConditional
    · simp only [hsrc, if_true]
      cases hk : st k with
      | none => exact ⟨e, by simp [stInsert, hk2, h], le_refl _⟩
      | some e1 => exact ⟨e, h, le_refl _⟩
    · simp only [hsrc, if_false]
      cases hk : st k with
      | none => exact ⟨e, by simp [stInsert, hk2, h], le_refl _⟩
      | some e1 =>
        by_cases hr : e1.source.rank ≤ src.rank
        · exact ⟨e, by simp [hr, stInsert, hk2, h], le_refl _⟩
        · exact ⟨e, by simp [hr, h], le_refl _⟩

/-- C3: tier monotonicity of the variable store.  A `MakefileConditional`
write stores only when the name is absent; any other write stores exactly when
the name is absent or the incoming tier's rank is at least the stored tier's;
consequently across any sequence of `Set` calls the stored tier of a name
never decreases. -/
theorem c3_set_policy :
    (∀ (st : Store) (k v : List Char),
      setVar st k v .makefileConditional k =
        (match st k with
         | some e => some e
         | none => some ⟨v, .makefileConditional⟩))
    ∧ (∀ (st : Store) (k v : List Char) (src : VarSource),
        src ≠ .makefileConditional →
        setVar st k v src k =
          (match st k with
           | none => some ⟨v, src⟩
           | some e => if e.source.rank ≤ src.rank then some ⟨v, src⟩ else some e))
    ∧ (∀ (ops : List SetOp) (st : Store) (k : List Char) (e e2 : VarEntry),
        st k = some e → applySets st ops k = some e2 →
        e.source.rank ≤ e2.source.rank) := by
  refine ⟨?_, ?_, ?_⟩
  · intro st k v
    unfold setVar
    cases h : st k with
    | none => simp [h, stInsert_self]
    | some e => simp [h]
  · intro st k v src hsrc
    unfold setVar
    cases h : st k with
    | none => simp [h, hsrc, stInsert_self]
    | some e =>
      by_cases hr : e.source.rank ≤ src.rank
      · simp [h, hsrc, hr, stInsert_self]
      · simp [h, hsrc, hr]
  · intro ops
    induction ops with
    | nil => intro st k e e2 h1 h2; simp [applySets] at h2; rw [h1] at h2
             exact le_of_eq (by cases h2; rfl)
    | cons o ops ih =>
      intro st k e e2 h1 h2
      obtain ⟨e3, he3, hr⟩ := setVar_preserves st o.key o.value o.src k e h1
      have h2' : applySets (setVar st o.key o.value o.src) ops k = some e2 := by
        simpa [applySets] using h2
      exact le_trans hr (ih _ k e3 e2 he3 h2')

/-- C3 witness: a run of two writes on a key initially at tier `envFile`. -/
theorem c3_set_policy_witness :
    (VarEntry.mk (s2l "v0") .envFile).source.rank ≤
      (VarEntry.mk (s2l "v2") .shellEnv).source.rank := by
  refine c3_set_policy.2.2
    [⟨s2l "X", s2l "v1", .envFile⟩, ⟨s2l "X", s2l "v2", .shellEnv⟩]
    (stInsert store0 (s2l "X") ⟨s2l "v0", .envFile⟩) (s2l "X")
    ⟨s2l "v0", .envFile⟩ ⟨s2l "v2", .shellEnv⟩ (by decide) (by decide)

/-- C5: code evaluated at the failing input.  After the header `a:` the blank
line is stored into the recipe and collection continues, so the indented line
after the blank line still belongs to the rule's recipe — the repo's PRD
("a recipe block is terminated by the first non-indented line; empty lines
that are not indented also terminate the recipe") says it must not. -/
theorem c5_blank_line_recipe :
    takeRecipe [s2l "\tc1", s2l "", s2l "\tc2"] =
      ([s2l "\tc1", s2l "", s2l "\tc2"], [])
    ∧ collectedRules shOracle0 envFs0 store0
        [s2l "a:", s2l "\tc1", s2l "", s2l "\tc2"] =
      .ok [⟨s2l "a:", [s2l "\tc1", s2l "", s2l "\tc2"]⟩] :=
  ⟨rfl, rfl⟩

/-- C6: code evaluated at the failing input `a\=b: c`.  The line has an
unescaped `:` (first conjunct) and no unescaped `=` anywhere (second
conjunct) — its only `=` is escaped — yet pass 1 rejects it ("not a rule,
assignment, or directive") instead of parsing a rule header, because the
header test uses a plain substring search for `=` on the left part. -/
theorem c6_escaped_equals_not_header :
    splitOnUnescaped (s2l "a\\=b: c") ':' = some (s2l "a\\=b", s2l " c")
    ∧ splitOnUnescaped (s2l "a\\=b: c") '=' = none
    ∧ collectedRules shOracle0 envFs0 store0 [s2l "a\\=b: c"] =
        .error (.notARule (s2l "a\\=b: c")) :=
  ⟨rfl, rfl, rfl⟩

/-- C7: code evaluated at the failing input `$(echo \))`.  The balance scan
closes the expression at the backslash-escaped `)` (first conjunct), leaving
the final `)` outside as literal text (second conjunct); and an escaped `\(`
does open a nesting level (third conjunct). -/
theorem c7_escaped_paren_delimits :
    findClose (s2l "echo \\))") 1 = some (s2l "echo \\", s2l ")")
    ∧ Expand store0 shOracle0 false (s2l "$(echo \\))") = .ok (s2l "R:echo \\)")
    ∧ findClose (s2l "a\\(b)c)") 1 = some (s2l "a\\(b)c", []) :=
  ⟨rfl, rfl, rfl⟩

/-- C9 counterexample: a run whose parsing fails exits with code 1, not 2,
and a run with no rules and no requested target also exits 1. -/
theorem c9_counterexample :
    mainExitCode true (.error (.notARule (s2l "junk"))) [] true (.ok ()) = 1
    ∧ mainExitCode true (.ok []) [] true (.ok ()) = 1
    ∧ ¬ mainExitCode true (.error (.notARule (s2l "junk"))) [] true (.ok ()) = 2 := by
  refine ⟨rfl, rfl, ?_⟩
  intro h
  simp [mainExitCode] at h

/-- C9 amended: every fatal outcome of main — missing makefile, parse error,
no target determinable, missing shell, build failure — exits with code 1, and
a successful run exits 0. -/
theorem c9_exit_codes :
    (∀ (parse : Except MlError (List Rule)) ct sf b,
        mainExitCode false parse ct sf b = 1)
    ∧ (∀ (e : MlError) ct sf b, mainExitCode true (.error e) ct sf b = 1)
    ∧ (∀ sf b, mainExitCode true (.ok []) [] sf b = 1)
    ∧ (∀ (rules : List Rule) (e : MlError) ct,
        mainExitCode true (.ok rules) ct true (.error e) = 1)
    ∧ (∀ (rules : List Rule) ct, (ct ≠ [] ∨ rules ≠ []) →
        mainExitCode true (.ok rules) ct true (.ok ()) = 0) := by
  refine ⟨?_, ?_, ?_, ?_, ?_⟩
  · intro parse ct sf b; simp [mainExitCode]
  · intro e ct sf b; simp [mainExitCode]
  · intro sf b; simp [mainExitCode]
  · intro rules e ct
    by_cases hct : ct = []
    · by_cases hr : rules.isEmpty
      · simp [mainExitCode, hct, hr]
      · simp [mainExitCode, hct, hr]
    · simp [mainExitCode, hct]
  · intro rules ct h
    by_cases hct : ct = []
    · have hr : rules ≠ [] := by
        rcases h with h | h
        · exact absurd hct h
        · exact h
      rcases rules with _ | ⟨r, rs⟩
      · exact absurd rfl hr
      · simp [mainExitCode, hct]
    · simp [mainExitCode, hct]

/-- C9 witness for the amended theorem's hypothesis. -/
theorem c9_exit_codes_witness :
    mainExitCode true (.ok [⟨[s2l "all"], [], []⟩]) [] true (.ok ()) = 0 :=
  c9_exit_codes.2.2.2.2 [⟨[s2l "all"], [], []⟩] [] (Or.inr (by decide))

/-- C4 counterexample: `ruleA` has the missing source `s2` which is not a rule
target, yet freshness evaluation does not fail: the earlier source `s1` is
newer than the target, the scan short-circuits to "stale", and the recipe
command runs. -/
theorem c4_counterexample :
    fsA (s2l "s2") = .missing
    ∧ rtNone (s2l "s2") = false
    ∧ (s2l "s2") ∈ ruleA.sources
    ∧ checkFreshness fsA rtNone ruleA = .ok true
    ∧ runRuleStep store0 shOracle0 exAll fsA rtNone ruleA =
        ([s2l "touch t"], none) :=
  ⟨rfl, rfl, by decide, rfl, rfl⟩

/-- C4 amended: when the source scan reaches a missing source — every earlier
source is either a skipped phony (missing but a rule target) or not newer than
the oldest target mtime — a missing source that is a rule target is ignored
and a missing source that is not produces the fatal missing-dependency error;
and a freshness error makes the build step run no recipe command at all. -/
theorem c4_missing_source :
    (∀ (fs : List Char → FsEntry) (rt : List Char → Bool) (t0 : List Char)
        (o : Option Nat) (pre post : List (List Char)) (s : List Char),
      (∀ p ∈ pre, srcPasses fs rt o p = true) →
      fs s = .missing → rt s = false →
      scanSources fs rt o t0 (pre ++ s :: post) =
        .error (.missingDependency s t0))
    ∧ (∀ (st : Store) (sh : Sh) (ex : List Char → Bool)
        (fs : List Char → FsEntry) (rt : List Char → Bool) (rule : Rule)
        (e : MlError),
      checkFreshness fs rt rule = .error e →
      runRuleStep st sh ex fs rt rule = ([], some e)) := by
  constructor
  · intro fs rt t0 o pre post s hpre hs hrt
    induction pre with
    | nil => simp [scanSources, hs, hrt]
    | cons p pre ih =>
      have hp := hpre p (by simp)
      have hrest : ∀ q ∈ pre, srcPasses fs rt o q = true := by
        intro q hq; exact hpre q (by simp [hq])
      unfold srcPasses at hp
      cases hfs : fs p with
      | missing =>
        rw [hfs] at hp
        have hp2 : rt p = true := hp
        simp [scanSources, hfs, hp2, ih hrest]
      | dir m =>
        rw [hfs] at hp
        have hp2 : (!mtimeAfter o m) = true := hp
        have hp3 : mtimeAfter o m = false := by simpa using hp2
        simp [scanSources, hfs, hp3, ih hrest]
      | file m =>
        rw [hfs] at hp
        have hp2 : (!mtimeAfter o m) = true := hp
        have hp3 : mtimeAfter o m = false := by simpa using hp2
        simp [scanSources, hfs, hp3, ih hrest]
  · intro st sh ex fs rt rule e h
    simp [runRuleStep, h]

/-- C4 witness: the amended scan at a concrete rule state. -/
theorem c4_missing_source_witness :
    scanSources fsA rtNone (some 9) (s2l "t") [s2l "s1", s2l "s2"] =
      .error (.missingDependency (s2l "s2") (s2l "t"))
    ∧ runRuleStep store0 shOracle0 exAll fsA rtNone
        ⟨[s2l "t"], [s2l "s2"], [s2l "touch t"]⟩ =
      ([], some (.missingDependency (s2l "s2") (s2l "t"))) := by
  constructor
  · exact c4_missing_source.1 fsA rtNone (s2l "t") (some 9) [s2l "s1"] []
      (s2l "s2") (by decide) (by decide) (by decide)
  · exact c4_missing_source.2 store0 shOracle0 exAll fsA rtNone
      ⟨[s2l "t"], [s2l "s2"], [s2l "touch t"]⟩
      (.missingDependency (s2l "s2") (s2l "t")) rfl


lemma splitFirstEq_mem :
    ∀ (t a b : List Char), splitFirstEq t = some (a, b) → '=' ∈ t := by
  intro t
  induction t with
  | nil => intro a b h; simp [splitFirstEq] at h
  | cons c cs ih =>
    intro a b h
    by_cases hc : c = '='
    · simp [hc]
    · simp only [splitFirstEq, hc, if_false] at h
      cases hsp : splitFirstEq cs with
      | none => rw [hsp] at h; simp at h
      | some p =>
        exact List.mem_cons_of_mem c (ih p.1 p.2 (by rw [hsp]))

lemma mem_trimSpace (c : Char) (l : List Char) (h : c ∈ trimSpace l) : c ∈ l := by
  unfold trimSpace at h
  rw [List.mem_reverse] at h
  have h2 := (List.dropWhile_sublist _).subset h
  rw [List.mem_reverse] at h2
  exact (List.dropWhile_sublist _).subset h2

lemma trimSpace_cons_of_not_space (c : Char) (xs : List Char)
    (hc : isSpaceChar c = false) : ∃ t, trimSpace (c :: xs) = c :: t := by
  unfold trimSpace
  rw [List.dropWhile_cons, hc]
  simp only [Bool.false_eq_true, if_false, List.reverse_cons]
  rw [List.dropWhile_append]
  by_cases he : (xs.reverse.dropWhile isSpaceChar).isEmpty
  · refine ⟨[], ?_⟩
    simp [he, List.dropWhile_cons, hc]
  · refine ⟨(xs.reverse.dropWhile isSpaceChar).reverse, ?_⟩
    simp [he]

/-- C10: a line of an env file that is blank, begins with `#`, has no `=`, or
has no tokens left of its first `=`, is rejected by `cleanEnvLine` (no
variable written, no error), and `loadEnvFile` over any line list containing
such a line behaves exactly as over the list with that line removed. -/
theorem c10_env_skip :
    (∀ l : List Char, trimSpace l = [] → cleanEnvLine l = none)
    ∧ (∀ l : List Char, l.head? = some '#' → cleanEnvLine l = none)
    ∧ (∀ l : List Char, l.contains '=' = false → cleanEnvLine l = none)
    ∧ (∀ (l lhs rhs : List Char), splitFirstEq (trimSpace l) = some (lhs, rhs) →
        fields (trimSpace lhs) = [] → cleanEnvLine l = none)
    ∧ (∀ (st : Store) (pre post : List (List Char)) (bad : List Char),
        cleanEnvLine bad = none →
        loadEnvFile st (pre ++ bad :: post) = loadEnvFile st (pre ++ post)) := by
  refine ⟨?_, ?_, ?_, ?_, ?_⟩
  · intro l h
    unfold cleanEnvLine
    simp [h]
  · intro l h
    cases l with
    | nil => simp at h
    | cons c xs =>
      have hc : c = '#' := by simpa using h
      subst hc
      obtain ⟨t, ht⟩ := trimSpace_cons_of_not_space '#' xs (by decide)
      unfold cleanEnvLine
      rw [ht]
      simp [listPrefix, s2l]
  · intro l h
    cases hsp : splitFirstEq (trimSpace l) with
    | none =>
      unfold cleanEnvLine
      dsimp only
      split
      · rfl
      · split
        · rfl
        · rw [hsp]
    | some p =>
      exfalso
      have h1 : '=' ∈ trimSpace l := splitFirstEq_mem _ p.1 p.2 (by rw [hsp])
      have h2 : '=' ∈ l := mem_trimSpace _ _ h1
      rw [← List.elem_iff] at h2
      have h3 : l.contains '=' = true := h2
      rw [h3] at h
      exact Bool.true_eq_false.mp h
  · intro l lhs rhs hsp hf
    unfold cleanEnvLine
    dsimp only
    split
    · rfl
    · split
      · rfl
      · rw [hsp]
        simp [hf]
  · intro st pre post bad h
    unfold loadEnvFile
    rw [List.foldl_append, List.foldl_append]
    simp [List.foldl_cons, h]

/-- C10 witness: concrete malformed lines are skipped and do not disturb
loading of the rest of the file. -/
theorem c10_env_skip_witness :
    cleanEnvLine (s2l "   ") = none
    ∧ cleanEnvLine (s2l "# note") = none
    ∧ cleanEnvLine (s2l "novalue") = none
    ∧ loadEnvFile store0 ([s2l "A=1"] ++ (s2l "novalue") :: [s2l "B=2"]) =
        loadEnvFile store0 ([s2l "A=1"] ++ [s2l "B=2"]) := by
  refine ⟨?_, ?_, ?_, ?_⟩
  · exact c10_env_skip.1 (s2l "   ") (by decide)
  · exact c10_env_skip.2.1 (s2l "# note") (by decide)
  · exact c10_env_skip.2.2.1 (s2l "novalue") (by decide)
  · exact c10_env_skip.2.2.2.2 store0 [s2l "A=1"] [s2l "B=2"] (s2l "novalue")
      (by decide)


lemma updOldest_some (a m : Nat) : updOldest (some a) m = some (Nat.min a m) := by
  unfold updOldest
  rcases Nat.lt_or_ge m a with h | h
  · simp [h, Nat.min_eq_right h.le]
  · simp [Nat.not_lt.mpr h, Nat.min_eq_left h]

lemma foldl_updOldest_some :
    ∀ (l : List Nat) (a : Nat), l.foldl updOldest (some a) = some (l.foldl Nat.min a) := by
  intro l
  induction l with
  | nil => intro a; rfl
  | cons m ms ih => intro a; simp [List.foldl_cons, updOldest_some, ih]

lemma foldl_updOldest_none :
    ∀ l : List Nat, l.foldl updOldest none = minMtimes l := by
  intro l
  cases l with
  | nil => rfl
  | cons a as =>
    simp only [List.foldl_cons, minMtimes]
    exact foldl_updOldest_some as a

lemma scanTargets_all_files (fs : List Char → FsEntry) :
    ∀ (ts : List (List Char)) (acc : Option Nat),
    (∀ t ∈ ts, isMissingB (fs t) = false ∧ isDirB (fs t) = false) →
    scanTargets fs ts acc =
      .done ((ts.filterMap (fun t => fileMtime (fs t))).foldl updOldest acc) := by
  intro ts
  induction ts with
  | nil => intro acc _; rfl
  | cons t ts ih =>
    intro acc h
    have ht := h t (by simp)
    cases hfs : fs t with
    | missing => rw [hfs] at ht; simp [isMissingB] at ht
    | dir m => rw [hfs] at ht; simp [isDirB] at ht
    | file m =>
      have hrest : ∀ x ∈ ts, isMissingB (fs x) = false ∧ isDirB (fs x) = false :=
        fun x hx => h x (by simp [hx])
      simp [scanTargets, hfs, List.filterMap_cons, fileMtime, ih _ hrest]

lemma scanTargets_bad (fs : List Char → FsEntry) :
    ∀ (ts : List (List Char)) (acc : Option Nat),
    ¬ (∀ t ∈ ts, isMissingB (fs t) = false ∧ isDirB (fs t) = false) →
    scanTargets fs ts acc = .stale ∨ ∃ a, scanTargets fs ts acc = .phony a := by
  intro ts
  induction ts with
  | nil => intro acc h; exact absurd (by simp) h
  | cons t ts ih =>
    intro acc h
    cases hfs : fs t with
    | missing => exact Or.inl (by simp [scanTargets, hfs])
    | dir m => exact Or.inr ⟨acc, by simp [scanTargets, hfs]⟩
    | file m =>
      have hnot : ¬ (∀ x ∈ ts, isMissingB (fs x) = false ∧ isDirB (fs x) = false) := by
        intro hall
        exact h (List.forall_mem_cons.mpr ⟨by simp [hfs, isMissingB, isDirB], hall⟩)
      simpa [scanTargets, hfs] using ih (updOldest acc m) hnot

lemma scanSources_ok (fs : List Char → FsEntry) (rt : List Char → Bool)
    (o : Nat) (t0 : List Char) :
    ∀ ss : List (List Char),
    (∀ s ∈ ss, fs s = .missing → rt s = true) →
    scanSources fs rt (some o) t0 ss =
      .ok (ss.any (fun s =>
        match entryMtime (fs s) with
        | some m => o < m
        | none => false)) := by
  intro ss
  induction ss with
  | nil => intro _; rfl
  | cons s ss ih =>
    intro h
    have hrest : ∀ x ∈ ss, fs x = .missing → rt x = true :=
      fun x hx => h x (by simp [hx])
    cases hfs : fs s with
    | missing =>
      have hr : rt s = true := h s (by simp) hfs
      simp [scanSources, hfs, hr, ih hrest, entryMtime]
    | dir m =>
      by_cases hlt : o < m
      · simp [scanSources, hfs, mtimeAfter, hlt, entryMtime]
      · simp [scanSources, hfs, mtimeAfter, hlt, entryMtime, ih hrest]
    | file m =>
      by_cases hlt : o < m
      · simp [scanSources, hfs, mtimeAfter, hlt, entryMtime]
      · simp [scanSources, hfs, mtimeAfter, hlt, entryMtime, ih hrest]

/-- C1: the code's freshness check agrees with the claimed policy whenever
every missing source is a known rule target (otherwise `checkFreshness`
errors; see C4): stale if some target is missing or is a directory; fresh
when there are no sources and all targets are regular files; otherwise stale
exactly when some source is strictly newer than the oldest target. -/
theorem c1_freshness (fs : List Char → FsEntry) (rt : List Char → Bool)
    (rule : Rule) (ht : rule.targets ≠ [])
    (hs : ∀ s ∈ rule.sources, fs s = .missing → rt s = true) :
    checkFreshness fs rt rule = .ok (specStale fs rule) := by
  have hne : rule.targets.isEmpty = false := by
    cases hcase : rule.targets with
    | nil => exact absurd hcase ht
    | cons a l => rfl
  unfold checkFreshness specStale
  by_cases hall : ∀ t ∈ rule.targets, isMissingB (fs t) = false ∧ isDirB (fs t) = false
  · have hm : rule.targets.any (fun t => isMissingB (fs t)) = false := by
      rw [List.any_eq_false]
      intro t htm
      simp [(hall t htm).1]
    have hd : rule.targets.any (fun t => isDirB (fs t)) = false := by
      rw [List.any_eq_false]
      intro t htm
      simp [(hall t htm).2]
    rw [scanTargets_all_files fs _ none hall]
    rw [foldl_updOldest_none]
    have hmts : ∃ m rest,
        rule.targets.filterMap (fun t => fileMtime (fs t)) = m :: rest := by
      cases hcase : rule.targets with
      | nil => exact absurd hcase ht
      | cons t0 ts =>
        have h0 := hall t0 (by simp [hcase])
        cases hfs : fs t0 with
        | missing => rw [hfs] at h0; simp [isMissingB] at h0
        | dir m => rw [hfs] at h0; simp [isDirB] at h0
        | file m =>
          refine ⟨m, ts.filterMap (fun t => fileMtime (fs t)), ?_⟩
          simp [hcase, List.filterMap_cons, hfs, fileMtime]
    obtain ⟨m0, rest0, hmts⟩ := hmts
    rw [hmts]
    simp only [hne, hm, hd, Bool.false_eq_true, if_false, minMtimes]
    by_cases hsrc : rule.sources.isEmpty
    · have : rule.sources = [] := List.isEmpty_iff.mp hsrc
      simp [this]
    · have hsne : rule.sources ≠ [] := fun hcon => hsrc (by simp [hcon])
      simp only [hsrc, Bool.false_eq_true, if_false, Bool.false_and]
      exact scanSources_ok fs rt (rest0.foldl Nat.min m0) (rule.targets.headD [])
        rule.sources hs
  · rcases scanTargets_bad fs rule.targets none hall with hsc | ⟨a, hsc⟩ <;>
      rw [hsc] <;>
      { simp only [hne, Bool.false_eq_true, if_false]
        have hex : rule.targets.any (fun t => isMissingB (fs t)) = true ∨
            rule.targets.any (fun t => isDirB (fs t)) = true := by
          rw [Classical.not_forall] at hall
          obtain ⟨t, hnt⟩ := hall
          rw [Classical.not_imp] at hnt
          obtain ⟨htm, hprop⟩ := hnt
          rw [Classical.not_and_iff_or_not_not] at hprop
          rcases hprop with hp | hp
          · exact Or.inl (List.any_eq_true.mpr ⟨t, htm, by
              simpa using hp⟩)
          · exact Or.inr (List.any_eq_true.mpr ⟨t, htm, by
              simpa using hp⟩)
        rcases hex with hx | hx
        · simp [hx]
        · by_cases hm2 : rule.targets.any (fun t => isMissingB (fs t)) = true
          · simp [hm2]
          · simp [hm2, hx] }

/-- C1 witness: a concrete stale rule (newer source) evaluated through the
theorem. -/
theorem c1_freshness_witness :
    checkFreshness fsA rtNone ⟨[s2l "t"], [s2l "s1"], []⟩ =
      .ok (specStale fsA ⟨[s2l "t"], [s2l "s1"], []⟩) :=
  c1_freshness fsA rtNone ⟨[s2l "t"], [s2l "s1"], []⟩ (by decide)
    (by
      intro s hsm hmiss
      simp only [List.mem_singleton] at hsm
      subst hsm
      exact absurd hmiss (by decide))


lemma findClose_length :
    ∀ (cs : List Char) (bal : Nat) (b r : List Char),
      findClose cs bal = some (b, r) → b.length + r.length + 1 = cs.length := by
  intro cs
  induction cs with
  | nil => intro bal b r h; simp [findClose] at h
  | cons c cs ih =>
    intro bal b r h
    simp only [findClose] at h
    by_cases hc : c = '('
    · rw [if_pos hc] at h
      cases hf : findClose cs (bal + 1) with
      | none => rw [hf] at h; simp at h
      | some p =>
        obtain ⟨pb, pr⟩ := p
        rw [hf] at h
        simp only [Option.some.injEq, Prod.mk.injEq] at h
        obtain ⟨hb, hrr⟩ := h
        subst hb; subst hrr
        have := ih (bal + 1) pb pr hf
        simp only [List.length_cons]
        omega
    · rw [if_neg hc] at h
      by_cases hc2 : c = ')'
      · rw [if_pos hc2] at h
        by_cases hb1 : bal = 1
        · rw [if_pos hb1] at h
          simp only [Option.some.injEq, Prod.mk.injEq] at h
          obtain ⟨hb, hrr⟩ := h
          subst hb; subst hrr
          simp
        · rw [if_neg hb1] at h
          cases hf : findClose cs (bal - 1) with
          | none => rw [hf] at h; simp at h
          | some p =>
            obtain ⟨pb, pr⟩ := p
            rw [hf] at h
            simp only [Option.some.injEq, Prod.mk.injEq] at h
            obtain ⟨hb, hrr⟩ := h
            subst hb; subst hrr
            have := ih (bal - 1) pb pr hf
            simp only [List.length_cons]
            omega
      · rw [if_neg hc2] at h
        cases hf : findClose cs bal with
        | none => rw [hf] at h; simp at h
        | some p =>
          obtain ⟨pb, pr⟩ := p
          rw [hf] at h
          simp only [Option.some.injEq, Prod.mk.injEq] at h
          obtain ⟨hb, hrr⟩ := h
          subst hb; subst hrr
          have := ih bal pb pr hf
          simp only [List.length_cons]
          omega

lemma expand_fuel_congr (st : Store) (sh : Sh) :
    ∀ (f1 f2 : Nat) (u : Bool) (vis : List (List Char)) (cs : List Char),
      cs.length < f1 → cs.length < f2 →
      expand st sh f1 u vis cs = expand st sh f2 u vis cs := by
  intro f1
  induction f1 using Nat.strong_induction_on with
  | _ f1 ih =>
    intro f2 u vis cs h1 h2
    obtain ⟨a, rfl⟩ : ∃ a, f1 = a + 1 := ⟨f1 - 1, by omega⟩
    obtain ⟨b, rfl⟩ : ∃ b, f2 = b + 1 := ⟨f2 - 1, by omega⟩
    cases cs with
    | nil => rfl
    | cons ch rest =>
      have hra : rest.length < a := by
        simp only [List.length_cons] at h1; omega
      have hrb : rest.length < b := by
        simp only [List.length_cons] at h2; omega
      simp only [expand]
      split
      · cases rest with
        | nil => rfl
        | cons c r2 =>
          have h2a : r2.length < a := by
            simp only [List.length_cons] at hra; omega
          have h2b : r2.length < b := by
            simp only [List.length_cons] at hrb; omega
          dsimp only
          rw [ih a (by omega) b u vis r2 h2a h2b]
      · split
        · cases rest with
          | nil => rfl
          | cons c2 r =>
            have hva : r.length < a := by
              simp only [List.length_cons] at hra; omega
            have hvb : r.length < b := by
              simp only [List.length_cons] at hrb; omega
            dsimp only
            split
            · rw [ih a (by omega) b u vis r hva hvb]
            · split
              · cases hf : findClose r 1 with
                | none => rfl
                | some p =>
                  obtain ⟨content, after⟩ := p
                  have hlen := findClose_length r 1 content after hf
                  have hca : content.length < a := by omega
                  have hcb : content.length < b := by omega
                  have haa : after.length < a := by omega
                  have hab : after.length < b := by omega
                  dsimp only
                  rw [ih a (by omega) b true vis content hca hcb,
                    ih a (by omega) b u vis after haa hab]
              · split
                · rw [ih a (by omega) b u vis (c2 :: r) hra hrb]
                · split
                  · rfl
                  · rw [ih a (by omega) b u vis
                      ((c2 :: r).drop ((c2 :: r).takeWhile isWordChar).length)
                      (by simp only [List.length_drop]; omega)
                      (by simp only [List.length_drop]; omega)]
        · rw [ih a (by omega) b u vis rest hra hrb]

lemma findClose_noParens :
    ∀ (body rest : List Char), (∀ c ∈ body, c ≠ '(' ∧ c ≠ ')') →
      findClose (body ++ ')' :: rest) 1 = some (body, rest) := by
  intro body
  induction body with
  | nil => intro rest _; simp [findClose]
  | cons c cs ih =>
    intro rest h
    have hc := h c (by simp)
    simp only [List.cons_append, findClose]
    rw [if_neg hc.1, if_neg hc.2]
    simp only [List.append_eq]
    rw [ih rest (fun x hx => h x (by simp [hx]))]

lemma expand_step (st : Store) (sh : Sh) (n : Nat) (u : Bool)
    (vis : List (List Char)) (body rest : List Char)
    (hb : ∀ c ∈ body, c ≠ '(' ∧ c ≠ ')') :
    expand st sh (n + 1) u vis ('$' :: '(' :: (body ++ ')' :: rest)) =
      match expand st sh n true vis body with
      | .error e => .error e
      | .ok ec =>
        if unsupportedMakeFunctions.contains (spaceToken ec) then
          .error (.unsupportedFunction (spaceToken ec))
        else
          match (if listPrefix (s2l "shell ") ec then
              runShellCmd sh (trimSpace (ec.drop 5))
            else match st ec with
              | some en => .ok en.value
              | none => runShellCmd sh ec) with
          | .error e => .error e
          | .ok v => (expand st sh n u vis rest).map (fun t => v ++ t) := by
  simp only [expand]
  rw [findClose_noParens body rest hb]
  simp

/-- C2 counterexample: for the body `subst<TAB>x` the first
whitespace-delimited token is `subst`, a known unsupported function name, yet
the expander does not fail: the dispatch splits the function name on a space
byte only, so the whole body is run as an implicit shell command. -/
theorem c2_counterexample :
    (fields (s2l "subst\tx")).headD [] = s2l "subst"
    ∧ (s2l "subst") ∈ unsupportedMakeFunctions
    ∧ Expand store0 shOracle0 false (s2l "$(subst\tx)") = .ok (s2l "R:subst\tx") :=
  ⟨rfl, by decide, rfl⟩

/-- C2 amended: for a `$(BODY)` construct (no nested parentheses in the raw
body), the expander first recursively expands BODY, then dispatches on the
expanded body: it fails when the first space-delimited token (the prefix
before the first space byte) is a known unsupported function name; else a body
beginning with `shell ` runs the trimmed remainder in a sub-shell; else a body
that exactly names a defined variable substitutes the stored value without
re-expansion; else the whole body runs as an implicit shell command.
Afterwards scanning continues after the closing parenthesis. -/
theorem c2_dispatch (st : Store) (sh : Sh) (u : Bool) (body rest : List Char)
    (hb : ∀ c ∈ body, c ≠ '(' ∧ c ≠ ')') :
    Expand st sh u ('$' :: '(' :: (body ++ ')' :: rest)) =
      match Expand st sh true body with
      | .error e => .error e
      | .ok ec =>
        if unsupportedMakeFunctions.contains (spaceToken ec) then
          .error (.unsupportedFunction (spaceToken ec))
        else
          match (if listPrefix (s2l "shell ") ec then
              runShellCmd sh (trimSpace (ec.drop 5))
            else match st ec with
              | some en => .ok en.value
              | none => runShellCmd sh ec) with
          | .error e => .error e
          | .ok v => (Expand st sh u rest).map (fun t => v ++ t) := by
  unfold Expand
  have hlen : ('$' :: '(' :: (body ++ ')' :: rest)).length =
      body.length + rest.length + 3 := by
    simp [List.length_cons, List.length_append]
    omega
  rw [hlen]
  rw [expand_step st sh (body.length + rest.length + 3) u [] body rest hb]
  rw [expand_fuel_congr st sh (body.length + rest.length + 3) (body.length + 1)
    true [] body (by omega) (by omega)]
  rw [expand_fuel_congr st sh (body.length + rest.length + 3) (rest.length + 1)
    u [] rest (by omega) (by omega)]

/-- C2 witness: the amended dispatch at a concrete `$(shell echo hi)!`. -/
theorem c2_dispatch_witness :
    Expand store0 shOracle0 false
        ('$' :: '(' :: (s2l "shell echo hi" ++ ')' :: s2l "!")) =
      match Expand store0 shOracle0 true (s2l "shell echo hi") with
      | .error e => .error e
      | .ok ec =>
        if unsupportedMakeFunctions.contains (spaceToken ec) then
          .error (.unsupportedFunction (spaceToken ec))
        else
          match (if listPrefix (s2l "shell ") ec then
              runShellCmd shOracle0 (trimSpace (ec.drop 5))
            else match store0 ec with
              | some en => .ok en.value
              | none => runShellCmd shOracle0 ec) with
          | .error e => .error e
          | .ok v => (Expand store0 shOracle0 false (s2l "!")).map (fun t => v ++ t) :=
  c2_dispatch store0 shOracle0 false (s2l "shell echo hi") (s2l "!") (by decide)

end MLite
